import Mathlib

/-!
Shallow embedding of the allocation-commitment core of the repository:
`src/merkle.rs` (Merkle tree construction, proof generation, proof
verification) and `src/wallets.rs` (allocation-table normalization,
`clean_addresses`).

Hashes in the source are 32-byte BLAKE2b digests compared by byte equality.
We model them as a free term algebra: `Hash.raw` stands for an arbitrary
externally supplied digest (a leaf hash), and `Hash.pair` for the digest of
the concatenation of two digests, i.e. the source's `hash_pair` function.
The free constructors make the modelled hash collision-free, the standard
idealisation of a cryptographic hash; the claims about proof soundness are
stated "barring a hash collision", which is exactly what this model captures.
All definitions follow the Rust source line by line; `anyhow::Result` becomes
`Except String` carrying the source's error message, a Rust `panic!`/`expect`
becomes `Except.error`/`Option.none` with the panic message noted.
-/

deriving instance DecidableEq for Except

namespace Merkle

/-- The 32-byte digest type (`pub type Hash = [u8; 32]`), modelled as a free term
algebra over the two ways the program obtains a digest: from outside
(`raw`) or by hashing a concatenated pair (`pair`, the source's
`hash_pair`). -/
inductive Hash where
  | raw : Nat → Hash
  | pair : Hash → Hash → Hash
deriving DecidableEq, Repr

/-- Source function `hash_pair(left, right)`: BLAKE2b over `left || right`.  In the free
model this is the `pair` constructor, hence injective (collision-free). -/
def hash_pair (left right : Hash) : Hash := Hash.pair left right

/-- One iteration of the builder's `while` loop body:
`current_layer.chunks(2).map(|pair| hash_pair(pair[0], pair.get(1).unwrap_or(pair[0])))`.
A trailing unpaired element is hashed with itself. -/
def nextLayer : List Hash → List Hash
  | [] => []
  | [a] => [hash_pair a a]
  | a :: b :: rest => hash_pair a b :: nextLayer rest

theorem nextLayer_length : ∀ l : List Hash, (nextLayer l).length = (l.length + 1) / 2
  | [] => rfl
  | [_] => by simp [nextLayer]
  | _ :: _ :: rest => by
    simp only [nextLayer, List.length_cons, nextLayer_length rest]
    omega

/-- The builder's `while current_layer.len() > 1` loop: returns the list of
layers pushed onto `levels` (in push order) together with the final
`current_layer` (the singleton root layer). -/
def buildAux (layer : List Hash) : List (List Hash) × List Hash :=
  if _h : 1 < layer.length then
    let next := nextLayer layer
    let r := buildAux next
    (next :: r.1, r.2)
  else ([], layer)
termination_by layer.length
decreasing_by
  simp only [nextLayer_length]
  omega

/-- Structure `pub struct MerkleTree { root: Hash, leaf_count: u32, levels: Vec<Vec<Hash>> }`. -/
structure MerkleTree where
  root : Hash
  leaf_count : Nat
  levels : List (List Hash)
deriving DecidableEq, Repr

/-- Constructor `MerkleTree::new(leaves)`.  Rejects fewer than two leaves, otherwise
builds the tree level by level; `leaf_count` is `leaves.len() as u32`
(hence the `% 2^32` truncation); `root` is the single entry of the final
layer (`current_layer[0]`, modelled with a default that is never reached
for accepted inputs). -/
def MerkleTree.new (leaves : List Hash) : Except String MerkleTree :=
  if leaves.length < 2 then .error "insufficient leaves"
  else
    let r := buildAux leaves
    .ok { root := r.2.headD (Hash.raw 0)
          leaf_count := leaves.length % 2 ^ 32
          levels := leaves :: r.1 }

/-- Method `MerkleTree::get_leaf_index`: position of the first occurrence of
`leaf_hash` in `levels.first()`. -/
def MerkleTree.get_leaf_index (t : MerkleTree) (leaf_hash : Hash) : Option Nat :=
  match t.levels.head? with
  | none => none
  | some l0 => l0.findIdx? (fun h => h == leaf_hash)

/-- Sibling selection inside `get_proof`'s loop: index `+1`/`-1` by parity;
if that falls outside the level, the node at `index` is its own sibling.
(`current_level[index]` would panic out of range in Rust; the default is
never reached for indices produced by `get_leaf_index`.) -/
def sibling (current_level : List Hash) (index : Nat) : Hash :=
  let sibling_index := if index % 2 == 0 then index + 1 else index - 1
  if sibling_index < current_level.length then
    current_level.getD sibling_index (Hash.raw 0)
  else
    current_level.getD index (Hash.raw 0)

/-- The `for current_level in self.levels.iter().take(self.levels.len() - 1)`
loop of `get_proof`: collect the sibling at each level, halving the index. -/
def proofLoop : List (List Hash) → Nat → List Hash
  | [], _ => []
  | current_level :: rest, index => sibling current_level index :: proofLoop rest (index / 2)

/-- Method `MerkleTree::get_proof(leaf)`.  The source `expect`s the leaf index and
panics with "leaf not found" when the leaf is absent from level 0; that
panic is modelled as `Except.error "leaf not found"`. -/
def MerkleTree.get_proof (t : MerkleTree) (leaf : Hash) : Except String (Nat × List Hash) :=
  match t.get_leaf_index leaf with
  | none => .error "leaf not found"
  | some leaf_index =>
      .ok (leaf_index, proofLoop (t.levels.take (t.levels.length - 1)) leaf_index)

/-- The fold of the free function `verify_proof`: starting from the leaf
hash, combine with each sibling (current on the left when the index is
even, on the right when odd), halving the index. -/
def verifyLoop (current_hash : Hash) (current_idx : Nat) : List Hash → Hash
  | [] => current_hash
  | s :: rest =>
      verifyLoop
        (if current_idx % 2 == 0 then hash_pair current_hash s else hash_pair s current_hash)
        (current_idx / 2) rest

/-- Free function `verify_proof(root, leaf, proof, leaf_idx)`: recompute the
path and compare with the root. -/
def verify_proof (root leaf : Hash) (proof : List Hash) (leaf_idx : Nat) : Bool :=
  verifyLoop leaf leaf_idx proof == root

/-- Method `MerkleTree::verify_proof(leaf, proof)`.  The source `expect`s
the leaf index — it panics with "leaf not found" when `leaf` is absent from
level 0; the panic is modelled as `none`, a returned boolean as `some`. -/
def MerkleTree.verify_proof (t : MerkleTree) (leaf : Hash) (proof : List Hash) : Option Bool :=
  (t.get_leaf_index leaf).map (fun leaf_idx => Merkle.verify_proof t.root leaf proof leaf_idx)

/-- Verification-side view of the builder: the `levels` vector stored by
`MerkleTree::new` as a function of the leaf layer. -/
def levelsOf (layer : List Hash) : List (List Hash) := layer :: (buildAux layer).1

/-- Verification-side view of the builder: the final `current_layer` of the
loop (the singleton root layer for accepted inputs). -/
def finalLayer (layer : List Hash) : List Hash := (buildAux layer).2

/-- Verification-side view of the builder: the stored `root`
(`current_layer[0]` after the loop). -/
def rootOf (layer : List Hash) : Hash := (buildAux layer).2.headD (Hash.raw 0)

/-- Verification-side view of the level sequence `get_proof` walks: every
stored level except the top one. -/
def proofLevels (layer : List Hash) : List (List Hash) :=
  if _h : 1 < layer.length then layer :: proofLevels (nextLayer layer) else []
termination_by layer.length
decreasing_by
  simp only [nextLayer_length]
  omega

/-- Fixture: the tree built from the two leaves `raw 1, raw 2`. -/
def twoLeafTree : MerkleTree :=
  ⟨hash_pair (Hash.raw 1) (Hash.raw 2), 2,
   [[Hash.raw 1, Hash.raw 2], [hash_pair (Hash.raw 1) (Hash.raw 2)]]⟩

/-- Fixture: the tree built from the four leaves `raw 1, raw 2, raw 3, raw 4`
(the four-leaf scenario of the spec's tampered-proof test). -/
def fourLeafTree : MerkleTree :=
  ⟨hash_pair (hash_pair (Hash.raw 1) (Hash.raw 2)) (hash_pair (Hash.raw 3) (Hash.raw 4)), 4,
   [[Hash.raw 1, Hash.raw 2, Hash.raw 3, Hash.raw 4],
    [hash_pair (Hash.raw 1) (Hash.raw 2), hash_pair (Hash.raw 3) (Hash.raw 4)],
    [hash_pair (hash_pair (Hash.raw 1) (Hash.raw 2)) (hash_pair (Hash.raw 3) (Hash.raw 4))]]⟩

/-- Fixture: the tree built from the three leaves `raw 1, raw 2, raw 3`
(odd leaf count, so the third leaf is self-paired). -/
def threeLeafTree : MerkleTree :=
  ⟨hash_pair (hash_pair (Hash.raw 1) (Hash.raw 2)) (hash_pair (Hash.raw 3) (Hash.raw 3)), 3,
   [[Hash.raw 1, Hash.raw 2, Hash.raw 3],
    [hash_pair (Hash.raw 1) (Hash.raw 2), hash_pair (Hash.raw 3) (Hash.raw 3)],
    [hash_pair (hash_pair (Hash.raw 1) (Hash.raw 2)) (hash_pair (Hash.raw 3) (Hash.raw 3))]]⟩

end Merkle

namespace Wallets

/-- A Sui address: 32 bytes, with a canonical byte-lexicographic order
(`sort_by_key` uses `Ord` on `Address`), modelled by its numeric value. -/
abbrev Address := Nat

/-- The modulus of Rust's `u64` arithmetic, `2^64`. -/
def u64Mod : Nat := 2 ^ 64

/-- Function `clean_addresses(addresses)` from `src/wallets.rs`:
1. duplicate check — a `HashSet` of the addresses is strictly smaller than
   the list exactly when some address repeats (`dedup` models the set);
2. zero check — `addresses.iter().any(|v| v.1 == 0)`;
3. `total` — `iter().map(...).sum::<u64>()`, which in Rust's release
   semantics wraps each addition modulo `2^64` (under debug overflow checks
   it panics instead; in neither case is an `Overflow` error returned);
4. `addresses.sort_by_key(|v| v.0)` — a stable sort by address; modelled by
   `List.insertionSort`, also stable, hence pointwise identical. -/
def clean_addresses (addresses : List (Address × Nat)) :
    Except String (Nat × List (Address × Nat)) :=
  if (addresses.map Prod.fst).dedup.length < addresses.length then
    .error "duplicates"
  else if addresses.any (fun v => v.2 == 0) then
    .error "empty claim"
  else
    let total := addresses.foldl (fun acc p => (acc + p.2) % u64Mod) 0
    .ok (total, addresses.insertionSort (fun a b => a.1 ≤ b.1))

end Wallets

namespace Merkle

theorem buildAux_of_lt {layer : List Hash} (h : 1 < layer.length) :
    buildAux layer =
      (nextLayer layer :: (buildAux (nextLayer layer)).1, (buildAux (nextLayer layer)).2) := by
  rw [buildAux]
  simp [h]

theorem buildAux_of_le {layer : List Hash} (h : ¬ 1 < layer.length) :
    buildAux layer = ([], layer) := by
  rw [buildAux]
  simp [h]

theorem levelsOf_of_lt {layer : List Hash} (h : 1 < layer.length) :
    levelsOf layer = layer :: levelsOf (nextLayer layer) := by
  simp [levelsOf, buildAux_of_lt h]

theorem levelsOf_of_le {layer : List Hash} (h : ¬ 1 < layer.length) :
    levelsOf layer = [layer] := by
  simp [levelsOf, buildAux_of_le h]

theorem finalLayer_of_lt {layer : List Hash} (h : 1 < layer.length) :
    finalLayer layer = finalLayer (nextLayer layer) := by
  simp [finalLayer, buildAux_of_lt h]

theorem finalLayer_of_le {layer : List Hash} (h : ¬ 1 < layer.length) :
    finalLayer layer = layer := by
  simp [finalLayer, buildAux_of_le h]

theorem rootOf_of_lt {layer : List Hash} (h : 1 < layer.length) :
    rootOf layer = rootOf (nextLayer layer) := by
  simp [rootOf, buildAux_of_lt h]

theorem proofLevels_of_lt {layer : List Hash} (h : 1 < layer.length) :
    proofLevels layer = layer :: proofLevels (nextLayer layer) := by
  rw [proofLevels]
  simp [h]

theorem proofLevels_of_le {layer : List Hash} (h : ¬ 1 < layer.length) :
    proofLevels layer = [] := by
  rw [proofLevels]
  simp [h]

theorem finalLayer_length (layer : List Hash) (h : 1 ≤ layer.length) :
    (finalLayer layer).length = 1 := by
  by_cases h1 : 1 < layer.length
  · rw [finalLayer_of_lt h1]
    exact finalLayer_length (nextLayer layer) (by rw [nextLayer_length]; omega)
  · rw [finalLayer_of_le h1]
    omega
termination_by layer.length
decreasing_by
  simp only [nextLayer_length]
  omega

theorem finalLayer_eq (layer : List Hash) (h : 1 ≤ layer.length) :
    finalLayer layer = [rootOf layer] := by
  have hl := finalLayer_length layer h
  have hr : rootOf layer = (finalLayer layer).headD (Hash.raw 0) := rfl
  match hfl : finalLayer layer, hl with
  | [a], _ => simp [hr, hfl]

theorem levelsOf_getLast? (layer : List Hash) :
    (levelsOf layer).getLast? = some (finalLayer layer) := by
  by_cases h1 : 1 < layer.length
  · rw [levelsOf_of_lt h1, finalLayer_of_lt h1]
    rw [← levelsOf_getLast? (nextLayer layer)]
    rw [levelsOf]
    exact List.getLast?_cons_cons ..
  · rw [levelsOf_of_le h1, finalLayer_of_le h1]
    rfl
termination_by layer.length
decreasing_by
  simp only [nextLayer_length]
  omega

theorem levelsOf_take (layer : List Hash) :
    (levelsOf layer).take ((levelsOf layer).length - 1) = proofLevels layer := by
  by_cases h1 : 1 < layer.length
  · have ih := levelsOf_take (nextLayer layer)
    rw [proofLevels_of_lt h1, levelsOf_of_lt h1]
    have hlen : 1 ≤ (levelsOf (nextLayer layer)).length := by
      rw [levelsOf]
      simp
    obtain ⟨m, hm⟩ : ∃ m, (levelsOf (nextLayer layer)).length = m + 1 :=
      ⟨(levelsOf (nextLayer layer)).length - 1, by omega⟩
    rw [List.length_cons, hm, Nat.add_sub_cancel, List.take_succ_cons, ← ih, hm,
      Nat.add_sub_cancel]
  · rw [proofLevels_of_le h1, levelsOf_of_le h1]
    rfl
termination_by layer.length
decreasing_by
  simp only [nextLayer_length]
  omega

theorem nextLayer_getD :
    ∀ (l : List Hash) (j : Nat), j < (nextLayer l).length →
      (nextLayer l).getD j (Hash.raw 0) =
        if 2 * j + 1 < l.length then
          hash_pair (l.getD (2 * j) (Hash.raw 0)) (l.getD (2 * j + 1) (Hash.raw 0))
        else
          hash_pair (l.getD (2 * j) (Hash.raw 0)) (l.getD (2 * j) (Hash.raw 0))
  | [], j, h => by simp [nextLayer] at h
  | [a], j, h => by
    have hj : j = 0 := by simpa [nextLayer] using h
    subst hj
    simp [nextLayer]
  | a :: b :: rest, 0, h => by
    simp [nextLayer]
  | a :: b :: rest, j + 1, h => by
    have hj : j < (nextLayer rest).length := by simpa [nextLayer] using h
    have ih := nextLayer_getD rest j hj
    have harith1 : 2 * (j + 1) = 2 * j + 1 + 1 := by omega
    have harith2 : 2 * (j + 1) + 1 = 2 * j + 1 + 1 + 1 := by omega
    simp only [nextLayer, List.getD_cons_succ, ih, harith1, harith2, List.length_cons]
    by_cases hc : 2 * j + 1 < rest.length
    · rw [if_pos hc, if_pos (by omega)]
    · rw [if_neg hc, if_neg (by omega)]

theorem step_eq (layer : List Hash) (i : Nat) (h : i < layer.length) :
    (if i % 2 == 0 then hash_pair (layer.getD i (Hash.raw 0)) (sibling layer i)
     else hash_pair (sibling layer i) (layer.getD i (Hash.raw 0))) =
      (nextLayer layer).getD (i / 2) (Hash.raw 0) := by
  have hj : i / 2 < (nextLayer layer).length := by rw [nextLayer_length]; omega
  rw [nextLayer_getD layer (i / 2) hj]
  by_cases hpar : i % 2 = 0
  · have hb : (i % 2 == 0) = true := by simp [hpar]
    have h2 : 2 * (i / 2) = i := by omega
    simp only [sibling, hb, if_true, h2]
    by_cases hc : i + 1 < layer.length
    · simp [hc]
    · simp [hc]
  · have hb : (i % 2 == 0) = false := by simp [hpar]
    have h2 : 2 * (i / 2) = i - 1 := by omega
    have h3 : i - 1 + 1 = i := by omega
    have hc : i - 1 < layer.length := by omega
    simp only [sibling, hb, Bool.false_eq_true, if_false, h2, h3, if_pos hc, if_pos h]

theorem verify_complete (layer : List Hash) (i : Nat) (h : i < layer.length) :
    verifyLoop (layer.getD i (Hash.raw 0)) i (proofLoop (proofLevels layer) i) =
      rootOf layer := by
  by_cases h1 : 1 < layer.length
  · rw [proofLevels_of_lt h1, rootOf_of_lt h1]
    simp only [proofLoop, verifyLoop]
    rw [step_eq layer i h]
    exact verify_complete (nextLayer layer) (i / 2) (by rw [nextLayer_length]; omega)
  · rw [proofLevels_of_le h1]
    have hi : i = 0 := by omega
    subst hi
    obtain ⟨a, rfl⟩ : ∃ a, layer = [a] := by
      match layer, h, h1 with
      | [a], _, _ => exact ⟨a, rfl⟩
      | a :: b :: rest, _, h1 =>
        exact absurd (by simp only [List.length_cons]; omega) h1
    rw [rootOf, buildAux_of_le (show ¬ 1 < [a].length by simp)]
    simp [proofLoop, verifyLoop]
termination_by layer.length
decreasing_by
  simp only [nextLayer_length]
  omega

theorem new_ok {leaves : List Hash} (h : 2 ≤ leaves.length) :
    MerkleTree.new leaves =
      .ok ⟨rootOf leaves, leaves.length % 2 ^ 32, levelsOf leaves⟩ := by
  rw [MerkleTree.new, if_neg (by omega)]
  rfl

theorem new_ok_inv {leaves : List Hash} {t : MerkleTree}
    (h : MerkleTree.new leaves = .ok t) :
    2 ≤ leaves.length ∧ t = ⟨rootOf leaves, leaves.length % 2 ^ 32, levelsOf leaves⟩ := by
  by_cases h2 : leaves.length < 2
  · rw [MerkleTree.new, if_pos h2] at h
    exact absurd h (by simp)
  · rw [new_ok (by omega)] at h
    injection h with h
    exact ⟨by omega, h.symm⟩

theorem get_leaf_index_new {leaves : List Hash} {t : MerkleTree}
    (ht : MerkleTree.new leaves = .ok t) (leaf : Hash) :
    t.get_leaf_index leaf = leaves.findIdx? (fun h => h == leaf) := by
  obtain ⟨h2, rfl⟩ := new_ok_inv ht
  simp [MerkleTree.get_leaf_index, levelsOf]

theorem findIdx?_mem_isSome {leaves : List Hash} {leaf : Hash} (hmem : leaf ∈ leaves) :
    (leaves.findIdx? (fun h => h == leaf)).isSome := by
  rw [List.findIdx?_isSome, List.any_eq_true]
  exact ⟨leaf, hmem, by simp⟩

theorem findIdx?_spec {leaves : List Hash} {leaf : Hash} {i : Nat}
    (h : leaves.findIdx? (fun h => h == leaf) = some i) :
    i < leaves.length ∧ leaves.getD i (Hash.raw 0) = leaf := by
  obtain ⟨hlt, hp, -⟩ := List.findIdx?_eq_some_iff_getElem.mp h
  refine ⟨hlt, ?_⟩
  rw [List.getD_eq_getElem _ _ hlt]
  simpa using hp

theorem get_proof_new {leaves : List Hash} {t : MerkleTree}
    (ht : MerkleTree.new leaves = .ok t) {leaf : Hash} {i : Nat}
    (hidx : t.get_leaf_index leaf = some i) :
    t.get_proof leaf = .ok (i, proofLoop (proofLevels leaves) i) := by
  obtain ⟨h2, rfl⟩ := new_ok_inv ht
  rw [MerkleTree.get_proof, hidx]
  rw [show (MerkleTree.mk (rootOf leaves) (leaves.length % 2 ^ 32) (levelsOf leaves)).levels
        = levelsOf leaves from rfl]
  rw [levelsOf_take]

theorem get_proof_ok_spec {leaves : List Hash} {t : MerkleTree}
    (ht : MerkleTree.new leaves = .ok t) {leaf : Hash} {i : Nat} {P : List Hash}
    (hp : t.get_proof leaf = .ok (i, P)) :
    i < leaves.length ∧ leaves.getD i (Hash.raw 0) = leaf ∧
      P = proofLoop (proofLevels leaves) i := by
  rcases heq : t.get_leaf_index leaf with - | j
  · rw [MerkleTree.get_proof, heq] at hp
    exact absurd hp (by simp)
  · have hj := findIdx?_spec (h := (get_leaf_index_new ht leaf) ▸ heq)
    rw [get_proof_new ht heq] at hp
    injection hp with hp
    rw [Prod.mk.injEq] at hp
    obtain ⟨rfl, rfl⟩ := hp
    exact ⟨hj.1, hj.2, rfl⟩

theorem get_proof_ok_verifies {leaves : List Hash} {t : MerkleTree}
    (ht : MerkleTree.new leaves = .ok t) {leaf : Hash} {i : Nat} {P : List Hash}
    (hp : t.get_proof leaf = .ok (i, P)) :
    verifyLoop leaf i P = t.root := by
  obtain ⟨hlt, hleaf, hP⟩ := get_proof_ok_spec ht hp
  have hv := verify_complete leaves i hlt
  rw [hleaf, ← hP] at hv
  obtain ⟨-, rfl⟩ := new_ok_inv ht
  exact hv

theorem verifyLoop_acc_ne :
    ∀ (P : List Hash) (idx : Nat) {a b : Hash}, a ≠ b →
      verifyLoop a idx P ≠ verifyLoop b idx P
  | [], _, _, _, hab => hab
  | _ :: rest, idx, a, b, hab => by
    simp only [verifyLoop]
    apply verifyLoop_acc_ne rest (idx / 2)
    by_cases hp : (idx % 2 == 0) = true
    · simpa [hp, hash_pair] using hab
    · simpa [hp, hash_pair] using hab

theorem verifyLoop_set_ne :
    ∀ (P : List Hash) (k idx : Nat) (cur s' : Hash),
      k < P.length → s' ≠ P.getD k (Hash.raw 0) →
      verifyLoop cur idx (P.set k s') ≠ verifyLoop cur idx P
  | [], k, _, _, _, hk, _ => absurd hk (by simp)
  | s :: rest, 0, idx, cur, s', _, hs => by
    have hs' : s' ≠ s := by simpa using hs
    simp only [List.set_cons_zero, verifyLoop]
    apply verifyLoop_acc_ne
    by_cases hp : (idx % 2 == 0) = true
    · simpa [hp, hash_pair] using hs'
    · simpa [hp, hash_pair] using hs'
  | s :: rest, k + 1, idx, cur, s', hk, hs => by
    simp only [List.set_cons_succ, verifyLoop]
    exact verifyLoop_set_ne rest k (idx / 2) _ s' (by simpa using hk) (by simpa using hs)

theorem levelsOf_getD_succ (layer : List Hash) (i : Nat)
    (h : i + 1 < (levelsOf layer).length) :
    (levelsOf layer).getD (i + 1) [] = nextLayer ((levelsOf layer).getD i []) := by
  by_cases h1 : 1 < layer.length
  · rw [levelsOf_of_lt h1] at h ⊢
    cases i with
    | zero =>
      simp only [List.getD_cons_succ, List.getD_cons_zero]
      rw [levelsOf]
      simp
    | succ i =>
      simp only [List.getD_cons_succ]
      exact levelsOf_getD_succ (nextLayer layer) i (by simpa using h)
  · rw [levelsOf_of_le h1] at h
    simp at h
termination_by layer.length
decreasing_by
  simp only [nextLayer_length]
  omega

theorem new_twoLeafTree : MerkleTree.new [Hash.raw 1, Hash.raw 2] = .ok twoLeafTree := by
  simp [MerkleTree.new, buildAux, nextLayer, twoLeafTree, levelsOf]

theorem new_fourLeafTree :
    MerkleTree.new [Hash.raw 1, Hash.raw 2, Hash.raw 3, Hash.raw 4] = .ok fourLeafTree := by
  simp [MerkleTree.new, buildAux, nextLayer, fourLeafTree, levelsOf]

theorem new_threeLeafTree :
    MerkleTree.new [Hash.raw 1, Hash.raw 2, Hash.raw 3] = .ok threeLeafTree := by
  simp [MerkleTree.new, buildAux, nextLayer, threeLeafTree, levelsOf]

/-- Claim C1 (completeness): for every tree built by `MerkleTree::new` from a
sequence of at least two leaf hashes and every leaf hash present in level 0,
`get_proof` returns an index and a sibling sequence for which `verify_proof`
against the stored root returns `true`. -/
theorem merkle_get_proof_complete (leaves : List Hash) (t : MerkleTree)
    (ht : MerkleTree.new leaves = .ok t) (leaf : Hash) (hmem : leaf ∈ leaves) :
    ∃ i P, t.get_proof leaf = .ok (i, P) ∧ verify_proof t.root leaf P i = true := by
  have hsome := findIdx?_mem_isSome hmem
  rw [← get_leaf_index_new ht leaf] at hsome
  obtain ⟨i, hi⟩ := Option.isSome_iff_exists.mp hsome
  have hok := get_proof_new ht hi
  refine ⟨i, _, hok, ?_⟩
  have hv := get_proof_ok_verifies ht hok
  simp [verify_proof, hv]

/-- Witness for C1 at the concrete two-leaf tree and its first leaf. -/
theorem merkle_get_proof_complete_witness :
    ∃ i P, twoLeafTree.get_proof (Hash.raw 1) = .ok (i, P) ∧
      verify_proof twoLeafTree.root (Hash.raw 1) P i = true :=
  merkle_get_proof_complete [Hash.raw 1, Hash.raw 2] twoLeafTree new_twoLeafTree
    (Hash.raw 1) (by decide)

/-- Claim C2 (odd-leaf self-pairing): for all leaf hashes `a, b, c`, the root
of the tree built from `[a, b, c]` is `H(H(a,b), H(c,c))` — the unpaired
final hash of an odd level is hashed with itself, not promoted. -/
theorem merkle_odd_leaf_self_pairing (a b c : Hash) :
    (MerkleTree.new [a, b, c]).map MerkleTree.root =
      .ok (hash_pair (hash_pair a b) (hash_pair c c)) := by
  simp [MerkleTree.new, buildAux, nextLayer, Except.map]

/-- Claim C3 (soundness under tampering): replacing any single sibling hash
of a proof produced by `get_proof` with a different hash makes
`verify_proof` return `false` (the free hash model has no collisions). -/
theorem merkle_proof_tamper_sound (leaves : List Hash) (t : MerkleTree)
    (ht : MerkleTree.new leaves = .ok t) (leaf : Hash) (i : Nat) (P : List Hash)
    (hp : t.get_proof leaf = .ok (i, P)) (k : Nat) (hk : k < P.length)
    (s' : Hash) (hs : s' ≠ P.getD k (Hash.raw 0)) :
    verify_proof t.root leaf (P.set k s') i = false := by
  have hroot := get_proof_ok_verifies ht hp
  have hne := verifyLoop_set_ne P k i leaf s' hk hs
  rw [hroot] at hne
  simpa [verify_proof] using hne

/-- Witness for C3: the spec's scenario — leaf at index 2 of the four-leaf
tree, first sibling of its proof replaced — fails verification. -/
theorem merkle_proof_tamper_sound_witness :
    verify_proof fourLeafTree.root (Hash.raw 3)
      ([Hash.raw 4, hash_pair (Hash.raw 1) (Hash.raw 2)].set 0 (Hash.raw 9)) 2 = false :=
  merkle_proof_tamper_sound [Hash.raw 1, Hash.raw 2, Hash.raw 3, Hash.raw 4] fourLeafTree
    new_fourLeafTree (Hash.raw 3) 2 [Hash.raw 4, hash_pair (Hash.raw 1) (Hash.raw 2)]
    (by decide) 0 (by decide) (Hash.raw 9) (by decide)

/-- Claim C6 (insufficient leaves): `MerkleTree::new` fails with the
"insufficient leaves" error exactly on inputs of length 0 or 1, and returns
a tree exactly on inputs of length at least 2. -/
theorem merkle_new_insufficient_leaves (leaves : List Hash) :
    (MerkleTree.new leaves = .error "insufficient leaves" ↔ leaves.length < 2) ∧
    ((∃ t, MerkleTree.new leaves = .ok t) ↔ 2 ≤ leaves.length) := by
  by_cases h : leaves.length < 2
  · rw [MerkleTree.new, if_pos h]
    refine ⟨by simp [h], ?_⟩
    constructor
    · rintro ⟨t, ht⟩
      exact absurd ht (by simp)
    · omega
  · rw [new_ok (by omega)]
    refine ⟨?_, ?_⟩
    · constructor
      · intro he
        exact absurd he (by simp)
      · omega
    · exact ⟨fun _ => by omega, fun _ => ⟨_, rfl⟩⟩

/-- Claim C7 (proof-generation failure): on a built tree, `get_proof` fails
with the "leaf not found" panic exactly when the requested leaf hash is
absent from level 0 (the input leaf sequence). -/
theorem merkle_get_proof_leaf_not_found (leaves : List Hash) (t : MerkleTree)
    (ht : MerkleTree.new leaves = .ok t) (leaf : Hash) :
    t.get_proof leaf = .error "leaf not found" ↔ leaf ∉ leaves := by
  constructor
  · intro he hmem
    rcases hfind : t.get_leaf_index leaf with - | j
    · rw [get_leaf_index_new ht leaf, List.findIdx?_eq_none_iff] at hfind
      have := hfind leaf hmem
      simp at this
    · rw [get_proof_new ht hfind] at he
      exact absurd he (by simp)
  · intro hmem
    have hnone : t.get_leaf_index leaf = none := by
      rw [get_leaf_index_new ht leaf, List.findIdx?_eq_none_iff]
      intro x hx
      simp only [beq_eq_false_iff_ne]
      rintro rfl
      exact hmem hx
    rw [MerkleTree.get_proof, hnone]

/-- Witness for C7: asking the two-leaf tree for a proof of an absent leaf
hash fails with "leaf not found". -/
theorem merkle_get_proof_leaf_not_found_witness :
    twoLeafTree.get_proof (Hash.raw 5) = .error "leaf not found" :=
  (merkle_get_proof_leaf_not_found [Hash.raw 1, Hash.raw 2] twoLeafTree new_twoLeafTree
    (Hash.raw 5)).mpr (by decide)

/-- Claim C8 (level invariant): for every built tree, level 0 is the input
leaf sequence; each subsequent level has half the length (rounded up) of the
previous one; each entry of a subsequent level is the pair hash of its two
children, the last child duplicated when out of range; and the last level is
exactly the singleton of the stored root. -/
theorem merkle_levels_invariant (leaves : List Hash) (t : MerkleTree)
    (ht : MerkleTree.new leaves = .ok t) :
    t.levels.head? = some leaves ∧
    (∀ i, i + 1 < t.levels.length →
      (t.levels.getD (i + 1) []).length = ((t.levels.getD i []).length + 1) / 2) ∧
    (∀ i j, i + 1 < t.levels.length → j < (t.levels.getD (i + 1) []).length →
      (t.levels.getD (i + 1) []).getD j (Hash.raw 0) =
        if 2 * j + 1 < (t.levels.getD i []).length then
          hash_pair ((t.levels.getD i []).getD (2 * j) (Hash.raw 0))
            ((t.levels.getD i []).getD (2 * j + 1) (Hash.raw 0))
        else
          hash_pair ((t.levels.getD i []).getD (2 * j) (Hash.raw 0))
            ((t.levels.getD i []).getD (2 * j) (Hash.raw 0))) ∧
    t.levels.getLast? = some [t.root] := by
  obtain ⟨h2, rfl⟩ := new_ok_inv ht
  refine ⟨?_, ?_, ?_, ?_⟩
  · rw [levelsOf]
    rfl
  · intro i hi
    rw [levelsOf_getD_succ leaves i hi, nextLayer_length]
  · intro i j hi hj
    rw [levelsOf_getD_succ leaves i hi] at hj ⊢
    exact nextLayer_getD _ j hj
  · rw [show (MerkleTree.mk (rootOf leaves) (leaves.length % 2 ^ 32) (levelsOf leaves)).levels
        = levelsOf leaves from rfl]
    rw [levelsOf_getLast?, finalLayer_eq leaves (by omega)]

/-- Witness for C8 at the three-leaf tree: level 0, the length relation and
the parent-hash relation at level 1 position 1 (the self-paired node), and
the root level. -/
theorem merkle_levels_invariant_witness :
    threeLeafTree.levels.head? = some [Hash.raw 1, Hash.raw 2, Hash.raw 3] ∧
    (threeLeafTree.levels.getD 1 []).length = ((threeLeafTree.levels.getD 0 []).length + 1) / 2 ∧
    (threeLeafTree.levels.getD 1 []).getD 1 (Hash.raw 0) =
      hash_pair ((threeLeafTree.levels.getD 0 []).getD 2 (Hash.raw 0))
        ((threeLeafTree.levels.getD 0 []).getD 2 (Hash.raw 0)) ∧
    threeLeafTree.levels.getLast? = some [threeLeafTree.root] := by
  have h := merkle_levels_invariant [Hash.raw 1, Hash.raw 2, Hash.raw 3] threeLeafTree
    new_threeLeafTree
  refine ⟨h.1, h.2.1 0 (by decide), ?_, h.2.2.2⟩
  have h3 := h.2.2.1 0 1 (by decide) (by decide)
  rw [if_neg (by decide)] at h3
  exact h3

/-- Counterexample to C9 as stated: the method `MerkleTree::verify_proof`
does not return a boolean when the supplied leaf hash is absent from level 0
— the source's `expect("leaf not found")` panics, modelled as `none`. -/
theorem merkle_method_verify_absent_panics :
    (MerkleTree.new [Hash.raw 1, Hash.raw 2]).map
      (fun t => t.verify_proof (Hash.raw 3) []) = .ok none := by
  rw [new_twoLeafTree]
  rfl

/-- Claim C9 as amended: the free function `verify_proof` is a total boolean
function, and the method `MerkleTree::verify_proof` returns a boolean
exactly when the leaf hash occurs in level 0; when it is absent the method
panics (`none`) instead of returning `false`. -/
theorem merkle_method_verify_some_iff_mem (leaves : List Hash) (t : MerkleTree)
    (ht : MerkleTree.new leaves = .ok t) (leaf : Hash) (proof : List Hash) :
    (∃ b, t.verify_proof leaf proof = some b) ↔ leaf ∈ leaves := by
  rw [MerkleTree.verify_proof, get_leaf_index_new ht leaf]
  constructor
  · rintro ⟨b, hb⟩
    rcases hfind : leaves.findIdx? (fun h => h == leaf) with - | j
    · rw [hfind] at hb
      simp at hb
    · obtain ⟨hlt, hgd⟩ := findIdx?_spec hfind
      rw [← hgd, List.getD_eq_getElem _ _ hlt]
      exact List.getElem_mem ..
  · intro hmem
    obtain ⟨j, hj⟩ := Option.isSome_iff_exists.mp (findIdx?_mem_isSome hmem)
    rw [hj]
    exact ⟨_, rfl⟩

/-- Witness for the amended C9 at the two-leaf tree: the method returns a
boolean for the present leaf `raw 1`. -/
theorem merkle_method_verify_some_iff_mem_witness :
    ∃ b, twoLeafTree.verify_proof (Hash.raw 1) [Hash.raw 2] = some b :=
  (merkle_method_verify_some_iff_mem [Hash.raw 1, Hash.raw 2] twoLeafTree new_twoLeafTree
    (Hash.raw 1) [Hash.raw 2]).mpr (by decide)

/-- Counterexample to C10 as stated: a proof of the wrong length can verify.
For the two-leaf tree with leaves `[H(c,b), b]` the tree has two levels, so
the correct proof for leaf `b` (at its true index 1) has length 1 — as
`get_proof` returns — yet the length-2 proof `[c, b]` also verifies against
the root at the same leaf and index. -/
theorem merkle_wrong_length_proof_accepted :
    (MerkleTree.new [Hash.pair (Hash.raw 0) (Hash.raw 1), Hash.raw 1]).map
      (fun t => (t.levels.length, t.get_proof (Hash.raw 1),
        verify_proof t.root (Hash.raw 1) [Hash.raw 0, Hash.raw 1] 1)) =
      .ok (2, .ok (1, [Hash.pair (Hash.raw 0) (Hash.raw 1)]), true) := by
  simp [MerkleTree.new, buildAux, nextLayer, MerkleTree.get_proof, MerkleTree.get_leaf_index,
    List.findIdx?_cons, proofLoop, sibling, verify_proof, verifyLoop, hash_pair, Except.map]

/-- Claim C10 as amended: `verify_proof` performs no length check at all; in
particular with an empty proof it returns `true` exactly when the supplied
leaf hash equals the root, for any leaf index, and a wrong-length proof is
not necessarily rejected. -/
theorem merkle_verify_empty_proof_iff_root (root leaf : Hash) (idx : Nat) :
    verify_proof root leaf [] idx = true ↔ leaf = root := by
  simp [verify_proof, verifyLoop]

end Merkle

namespace Wallets

theorem dedup_length_lt_iff {l : List Address} : l.dedup.length < l.length ↔ ¬ l.Nodup := by
  constructor
  · intro hlt hnd
    rw [hnd.dedup] at hlt
    omega
  · intro hnd
    rcases Nat.lt_or_ge l.dedup.length l.length with h | h
    · exact h
    · have hle := (List.dedup_sublist l).length_le
      have heq := (List.dedup_sublist l).eq_of_length (by omega)
      rw [← heq] at hnd
      exact absurd (List.nodup_dedup l) hnd

theorem foldl_mod_sum :
    ∀ (l : List (Address × Nat)) (acc : Nat), acc < u64Mod →
      l.foldl (fun acc p => (acc + p.2) % u64Mod) acc = (acc + (l.map Prod.snd).sum) % u64Mod
  | [], acc, h => by simp [Nat.mod_eq_of_lt h]
  | p :: rest, acc, h => by
    have hM : 0 < u64Mod := by simp [u64Mod]
    simp only [List.foldl_cons, List.map_cons, List.sum_cons]
    rw [foldl_mod_sum rest ((acc + p.2) % u64Mod) (Nat.mod_lt _ hM), Nat.mod_add_mod]
    congr 1
    omega

/-- Counterexample to C4 as stated: an input that contains both a repeated
address and a zero amount fails with the duplicate-address error, not the
zero-allocation error — the duplicate check runs first. -/
theorem clean_addresses_dup_zero_cex :
    clean_addresses [(1, 2), (1, 0)] = .error "duplicates" ∧
    clean_addresses [(1, 2), (1, 0)] ≠ .error "empty claim" := by
  decide

/-- Claim C4 as amended: `clean_addresses` fails with the duplicate-address
error on any input with a repeated address; on any duplicate-free input
containing a zero amount it fails with the zero-allocation error; and on
every valid input (duplicate-free, zero-free, with the amounts summing
within the unsigned 64-bit range) it returns the exact total together with a
permutation of the input sorted ascending by address. -/
theorem clean_addresses_postconditions :
    (∀ l : List (Address × Nat), ¬ (l.map Prod.fst).Nodup →
      clean_addresses l = .error "duplicates") ∧
    (∀ l : List (Address × Nat), (l.map Prod.fst).Nodup →
      (∃ p ∈ l, p.2 = 0) → clean_addresses l = .error "empty claim") ∧
    (∀ l : List (Address × Nat), (l.map Prod.fst).Nodup →
      (∀ p ∈ l, p.2 ≠ 0) → (l.map Prod.snd).sum < u64Mod →
      ∃ tbl, clean_addresses l = .ok ((l.map Prod.snd).sum, tbl) ∧
        tbl.Perm l ∧ tbl.Sorted (fun a b => a.1 ≤ b.1)) := by
  refine ⟨?_, ?_, ?_⟩
  · intro l hnd
    rw [clean_addresses,
      if_pos (by rw [← List.length_map l Prod.fst]; exact dedup_length_lt_iff.mpr hnd)]
  · intro l hnd ⟨p, hp, hz⟩
    rw [clean_addresses,
      if_neg (by rw [List.Nodup.dedup hnd, List.length_map]; omega),
      if_pos (List.any_eq_true.mpr ⟨p, hp, by simp [hz]⟩)]
  · intro l hnd hz hsum
    refine ⟨l.insertionSort (fun a b => a.1 ≤ b.1), ?_, ?_, ?_⟩
    · rw [clean_addresses,
        if_neg (by rw [List.Nodup.dedup hnd, List.length_map]; omega),
        if_neg (by
          simp only [List.any_eq_true, not_exists]
          rintro p ⟨hp, hpz⟩
          exact hz p hp (by simpa using hpz))]
      rw [foldl_mod_sum l 0 (by simp [u64Mod]), Nat.zero_add, Nat.mod_eq_of_lt hsum]
    · exact List.perm_insertionSort _ l
    · haveI : IsTotal (Address × Nat) (fun a b => a.1 ≤ b.1) :=
        ⟨fun a b => Nat.le_total a.1 b.1⟩
      haveI : IsTrans (Address × Nat) (fun a b => a.1 ≤ b.1) :=
        ⟨fun _ _ _ hab hbc => Nat.le_trans hab hbc⟩
      exact List.sorted_insertionSort _ l

/-- Claim C5 check: the code at the overflowing input — two entries whose
amounts sum to `2^64 + 1` pass the duplicate and zero checks and the
normalizer returns `Ok` with the silently wrapped total `1`, not an
`Overflow` error; the wrapped total differs from the mathematical sum. -/
theorem clean_addresses_overflow_wraps :
    clean_addresses [(1, 2 ^ 64 - 1), (2, 2)] = .ok (1, [(1, 2 ^ 64 - 1), (2, 2)]) ∧
    (1 : Nat) ≠ (2 ^ 64 - 1) + 2 := by
  decide

/-- Witness for the amended C4 at three concrete tables: a duplicated
address, a zero amount behind distinct addresses, and a valid unsorted
table. -/
theorem clean_addresses_postconditions_witness :
    clean_addresses [(1, 5), (1, 7)] = .error "duplicates" ∧
    clean_addresses [(1, 5), (2, 0)] = .error "empty claim" ∧
    ∃ tbl, clean_addresses [(2, 5), (1, 7)] =
        .ok ((([(2, 5), (1, 7)] : List (Address × Nat)).map Prod.snd).sum, tbl) ∧
      tbl.Perm [(2, 5), (1, 7)] ∧ tbl.Sorted (fun a b => a.1 ≤ b.1) :=
  ⟨clean_addresses_postconditions.1 [(1, 5), (1, 7)] (by decide),
   clean_addresses_postconditions.2.1 [(1, 5), (2, 0)] (by decide) ⟨(2, 0), by decide, rfl⟩,
   clean_addresses_postconditions.2.2 [(2, 5), (1, 7)] (by decide) (by decide) (by decide)⟩

end Wallets

